import Mathlib

/-!
# Verification of the Bakkal price-monitor pipeline

Shallow embedding of the price-monitoring pipeline:
* `parser.py` — the `ProductData` record,
* `main.py` (`run`) — the deduplication stage and the per-product
  reconciliation loop (compare with last price, alert, upsert),
* `storage.py` (`upsert_price`) — the persisted observation,
* `scraper.py` — `chunk_text` and `_parse_tr_price`.

Python `float` prices are modelled as exact rationals (`ℚ`); Python strings
are modelled as `List Char`.  Fallible operations return `Option`.
-/

namespace Bakkal

/-- From `parser.py` — `ProductData`: structured product record
(`product_name`, `current_price`, `market_name`, `product_url`). -/
structure ProductData where
  product_name : String
  current_price : ℚ
  market_name : String
  product_url : String
deriving DecidableEq

/-! ## Deduplication stage (`main.py`, steps 3–6 of `run`)

Each source loop runs
`if d["product_url"] not in seen_urls and d["current_price"] > 0:` and then
adds the URL to `seen_urls` and appends the record to `unique_products`.
The four loops share one `seen_urls` set, so the whole stage is a single
fold over the concatenated source order. -/

/-- One source-loop pass of `main.py`'s dedup stage: keep a record iff its
URL is unseen and its price is positive, marking the URL seen. -/
def dedupAux (seen : List String) : List ProductData → List ProductData
  | [] => []
  | p :: ps =>
      if p.product_url ∉ seen ∧ 0 < p.current_price then
        p :: dedupAux (p.product_url :: seen) ps
      else
        dedupAux seen ps

/-- The full dedup stage of `main.py`: fold over all candidate records in
source order with an initially empty `seen_urls` set. -/
def dedup (records : List ProductData) : List ProductData :=
  dedupAux [] records

/-! ## Reconciliation loop (`main.py`, step 7) and persistence
(`storage.py`, `upsert_price`) -/

/-- Python's `round(x, 2)` (round-half-to-even at two decimals), on exact
rationals: round `x * 100` to the nearest integer, ties to even, divide
back by `100`. -/
def round2 (x : ℚ) : ℚ :=
  let y := x * 100
  let f := ⌊y⌋
  let r := y - f
  let n : ℤ :=
    if r < 1/2 then f
    else if 1/2 < r then f + 1
    else if f % 2 = 0 then f else f + 1
  (n : ℚ) / 100

/-- From `storage.py` — a row of `price_history` as written by `upsert_price`
(the date/timestamp columns are not modelled). -/
structure Observation where
  product_url : String
  product_name : String
  market_name : String
  current_price : ℚ
  previous_price : Option ℚ
  price_drop_pct : Option ℚ
deriving DecidableEq

/-- From `storage.py` — `upsert_price`: build the persisted observation.
`price_drop_pct` is computed whenever `previous_price is not None and
previous_price > 0`, as `round(((previous_price - current_price) /
previous_price) * 100, 2)`. -/
def upsertRecord (product : ProductData) (previous_price : Option ℚ) :
    Observation :=
  let price_drop_pct : Option ℚ :=
    match previous_price with
    | some pp =>
        if 0 < pp then
          some (round2 ((pp - product.current_price) / pp * 100))
        else
          none
    | none => none
  { product_url := product.product_url
    product_name := product.product_name
    market_name := product.market_name
    current_price := product.current_price
    previous_price := previous_price
    price_drop_pct := price_drop_pct }

/-- From `main.py` lines 140–141: the drop percentage computed in the
reconciliation loop — only when a last price exists and the current price
strictly decreased. -/
def loopDropPct (last : Option ℚ) (current : ℚ) : Option ℚ :=
  match last with
  | some lp =>
      if current < lp then some ((lp - current) / lp * 100) else none
  | none => none

/-- From `main.py` lines 140–142: the alert decision — fire iff a drop
percentage was computed and it is `>= threshold` (unrounded). -/
def alertFires (threshold : ℚ) (last : Option ℚ) (current : ℚ) : Bool :=
  match loopDropPct last current with
  | some d => threshold ≤ d
  | none => false

/-- Observable effects of one iteration of the reconciliation loop. -/
inductive Event where
  | alertSent (p : ProductData) (last : ℚ) (drop : ℚ) (delivered : Bool)
  | upserted (o : Observation)
deriving DecidableEq

/-- Recognise an upsert event. -/
def Event.isUpsert : Event → Bool
  | .upserted _ => true
  | _ => false

/-- Recognise an alert event. -/
def Event.isAlert : Event → Bool
  | .alertSent _ _ _ _ => true
  | _ => false

/-- The loop-body validity guard of `main.py` line 131:
`if not product.product_url or product.current_price <= 0: continue`.
A record is processed iff its URL is non-empty and its price positive. -/
def processable (p : ProductData) : Bool :=
  p.product_url ≠ "" ∧ 0 < p.current_price

/-- From `main.py` lines 140–157: the alert part of one loop iteration — when a
last price exists and the price strictly dropped by at least the
threshold, send the alert (whose delivery may fail). -/
def alertEventsOf (threshold : ℚ) (delivered : ProductData → Bool)
    (p : ProductData) : Option ℚ → List Event
  | some lp =>
      if p.current_price < lp then
        if threshold ≤ (lp - p.current_price) / lp * 100 then
          [Event.alertSent p lp ((lp - p.current_price) / lp * 100)
            (delivered p)]
        else []
      else []
  | none => []

/-- One iteration of the reconciliation loop (`main.py` lines 130–161):
skip invalid records; look the last price up in the store; fire the alert
per `alertEventsOf`; always call `upsert_price` with the snapshot
`last_price`; the store afterwards answers the freshly written price.
`delivered` models whether Telegram delivery succeeds; `store` maps a
product URL to its last recorded price (`get_last_price`). -/
def processRecord (threshold : ℚ) (delivered : ProductData → Bool)
    (store : String → Option ℚ) (p : ProductData) :
    List Event × (String → Option ℚ) :=
  if processable p then
    (alertEventsOf threshold delivered p (store p.product_url) ++
      [Event.upserted (upsertRecord p (store p.product_url))],
     fun u => if u = p.product_url then some p.current_price else store u)
  else
    ([], store)

/-- The whole reconciliation loop over the deduplicated records, threading
the store and collecting events in order. -/
def runLoop (threshold : ℚ) (delivered : ProductData → Bool) :
    (String → Option ℚ) → List ProductData → List Event
  | _, [] => []
  | store, p :: ps =>
      let r := processRecord threshold delivered store p
      r.1 ++ runLoop threshold delivered r.2 ps

/-! ## `scraper.py` — `chunk_text`

Python strings are modelled as `List Char`; `text[a:b]` is
`(text.drop a).take (b - a)`, `text.rfind("\n", a, b)` is the greatest
index in `[a, b)` holding `'\n'` (`-1` when there is none), and the
truthiness of `chunk.strip()` is "contains a non-whitespace character". -/

/-- Whitespace as stripped by Python's `str.strip()` (the ASCII whitespace
characters plus NBSP; rarer Unicode whitespace is outside the model and
does not occur in the inputs considered here). -/
def isWS (c : Char) : Bool :=
  c.toNat = 32 ∨ c.toNat = 9 ∨ c.toNat = 10 ∨ c.toNat = 13 ∨
  c.toNat = 11 ∨ c.toNat = 12 ∨ c.toNat = 160

/-- Truthiness of `s.strip()` in Python: `s` has a non-whitespace char. -/
def hasContent (s : List Char) : Bool :=
  s.any (fun c => !(isWS c))

/-- Model of `text.rfind("\n", start, stop)`: the greatest index `i` with
`start ≤ i < stop` and `text[i] = '\n'`, or `-1` if there is none. -/
def pyRfindNl (text : List Char) (start stop : Nat) : Int :=
  (List.range stop).foldl
    (fun acc i =>
      if start ≤ i ∧ text.getD i ' ' = '\n' then (i : Int) else acc)
    (-1)

/-- The `while start < len(text)` loop of `chunk_text`, with explicit fuel.
`start` strictly increases on every iteration, so `text.length + 1` units
of fuel are always enough to reproduce the Python loop exactly. -/
def chunkLoop (text : List Char) (chunk_size : Nat) :
    Nat → Nat → List (List Char)
  | 0, _ => []
  | fuel + 1, start =>
      if start < text.length then
        let stop := start + chunk_size
        if text.length ≤ stop then
          let chunk := text.drop start
          if hasContent chunk then [chunk] else []
        else
          let bp : Int := pyRfindNl text start stop
          let bp2 : Nat := if bp ≤ (start : Int) then stop else bp.toNat
          let chunk := (text.drop start).take (bp2 - start)
          let rest := chunkLoop text chunk_size fuel (bp2 + 1)
          if hasContent chunk then chunk :: rest else rest
      else []

/-- From `scraper.py` — `chunk_text`: split `text` into chunks of at most
`chunk_size` characters, preferring to break at the last newline inside
each window. -/
def chunk_text (text : List Char) (chunk_size : Nat) : List (List Char) :=
  if text.length ≤ chunk_size then
    if hasContent text then [text] else []
  else
    chunkLoop text chunk_size (text.length + 1) 0

/-! ## `scraper.py` — `_parse_tr_price`

`raw.replace("₺", "").replace("\xa0", "").strip()` followed by
`.replace(".", "").replace(",", ".")` and `float(...)`, with `0.0` on
`ValueError`.  All replaced patterns are single characters, so `replace`
is `filter`/`map` on the character list.  `float()` is modelled on
decimal literals (optional surrounding whitespace, optional sign, digits
with at most one `'.'`, optional exponent) together with the named
special values it accepts — `inf`, `infinity` and `nan`, case-insensitive
and optionally signed, which yield the non-finite IEEE values; since the
non-finite values are not rationals, the result type `PyFloat` carries
them as explicit constructors next to the finite `ℚ` values.  Underscore
digit separators (which require digits around them, so never occur in a
digit-free string) are outside the model. -/

/-- ASCII decimal digit `'0'..'9'`. -/
def isAsciiDigit (c : Char) : Bool :=
  48 ≤ c.toNat ∧ c.toNat ≤ 57

/-- Numeric value of a digit string, most significant digit first. -/
def digitsVal (s : List Char) : ℕ :=
  s.foldl (fun a c => 10 * a + (c.toNat - 48)) 0

/-- Python `s.strip()`: drop whitespace from both ends. -/
def pyStrip (s : List Char) : List Char :=
  ((s.dropWhile isWS).reverse.dropWhile isWS).reverse

/-- The digit run of an exponent: at least one digit, consuming the whole
remaining input, with the already-read sign applied. -/
def expDigits (sgn : ℤ) (u : List Char) : Option ℤ :=
  if u ≠ [] ∧ u.all isAsciiDigit then some (sgn * digitsVal u) else none

/-- The optional exponent suffix of a float literal: empty, or
`e`/`E` followed by an optional sign and at least one digit. -/
def parseExpPart (s : List Char) : Option ℤ :=
  match s with
  | [] => some 0
  | c :: t =>
      if c = 'e' ∨ c = 'E' then
        match t with
        | [] => none
        | c2 :: u =>
            if c2 = '+' then expDigits 1 u
            else if c2 = '-' then expDigits (-1) u
            else expDigits 1 (c2 :: u)
      else none

/-- The unsigned part of a float literal: digits, optionally split by one
`'.'` (at least one digit overall), then an optional exponent. -/
def parseMantissa (s : List Char) : Option ℚ :=
  let ip := s.takeWhile isAsciiDigit
  let rest := s.dropWhile isAsciiDigit
  match rest with
  | [] =>
      if ip = [] then none
      else (parseExpPart []).map fun e => (digitsVal ip : ℚ) * (10 : ℚ) ^ e
  | c :: rest2 =>
      if c = '.' then
        if ip = [] ∧ rest2.takeWhile isAsciiDigit = [] then none
        else
          (parseExpPart (rest2.dropWhile isAsciiDigit)).map fun e =>
            ((digitsVal ip : ℚ) +
              (digitsVal (rest2.takeWhile isAsciiDigit) : ℚ) /
                10 ^ (rest2.takeWhile isAsciiDigit).length) *
              (10 : ℚ) ^ e
      else
        if ip = [] then none
        else
          (parseExpPart (c :: rest2)).map fun e =>
            (digitsVal ip : ℚ) * (10 : ℚ) ^ e

/-- A Python float value: a finite value (idealised as `ℚ`), a signed
infinity, or NaN. -/
inductive PyFloat where
  | finite (q : ℚ)
  | inf (neg : Bool)
  | nan
deriving DecidableEq

/-- ASCII lower-casing, as used by `float()`'s case-insensitive match of
the named special values. -/
def lowerChar (c : Char) : Char :=
  if 65 ≤ c.toNat ∧ c.toNat ≤ 90 then Char.ofNat (c.toNat + 32) else c

/-- The sign-stripped body of a `float()` argument: the named specials
`inf` / `infinity` / `nan` (case-insensitive), or a decimal literal. -/
def pyFloatUnsigned (neg : Bool) (t : List Char) : Option PyFloat :=
  if t.map lowerChar = ['i', 'n', 'f'] ∨
      t.map lowerChar = ['i', 'n', 'f', 'i', 'n', 'i', 't', 'y'] then
    some (PyFloat.inf neg)
  else if t.map lowerChar = ['n', 'a', 'n'] then some PyFloat.nan
  else (parseMantissa t).map fun q => PyFloat.finite (if neg then -q else q)

/-- Python `float(s)`: strip whitespace, read an optional sign, then
either a named special value or a decimal literal (mantissa and optional
exponent); `none` models `ValueError`. -/
def pyFloat (s : List Char) : Option PyFloat :=
  match pyStrip s with
  | [] => none
  | c :: u =>
      if c = '+' then pyFloatUnsigned false u
      else if c = '-' then pyFloatUnsigned true u
      else pyFloatUnsigned false (c :: u)

/-- The cleaning pipeline of `_parse_tr_price`: remove `'₺'` and NBSP,
strip, remove `'.'` (thousands separator), turn `','` into `'.'`. -/
def trNormalize (raw : List Char) : List Char :=
  let cleaned :=
    pyStrip ((raw.filter (fun c => c ≠ '₺')).filter (fun c => c ≠ '\xa0'))
  (cleaned.filter (fun c => c ≠ '.')).map (fun c => if c = ',' then '.' else c)

/-- From `scraper.py` — `_parse_tr_price`: normalise the Turkish price string
and parse it as a float, returning `0.0` when parsing fails. -/
def parse_tr_price (raw : List Char) : PyFloat :=
  (pyFloat (trNormalize raw)).getD (PyFloat.finite 0)

/-! ## Character and list helpers for the price-string parser -/

lemma digit_not_ws {c : Char} (h : isAsciiDigit c = true) :
    isWS c = false := by
  simp only [isAsciiDigit, decide_eq_true_eq] at h
  simp only [isWS, decide_eq_false_iff_not]
  omega

lemma digit_ne_of {c x : Char} (h : isAsciiDigit c = true)
    (hx : isAsciiDigit x = false) : c ≠ x := by
  intro he
  rw [he, hx] at h
  exact Bool.false_ne_true h

lemma filter_ne_eq_self {x : Char} {s : List Char}
    (h : ∀ c ∈ s, c ≠ x) : s.filter (fun c => c ≠ x) = s := by
  induction s with
  | nil => rfl
  | cons a t ih =>
      rw [List.filter_cons_of_pos
        (by simp [h a (List.mem_cons_self _ _)]),
        ih fun c hc => h c (List.mem_cons_of_mem _ hc)]

lemma map_decomma_eq_self {s : List Char} (h : ∀ c ∈ s, c ≠ ',') :
    s.map (fun c => if c = ',' then '.' else c) = s := by
  induction s with
  | nil => rfl
  | cons a t ih =>
      simp only [List.map_cons, if_neg (h a (List.mem_cons_self _ _)),
        ih fun c hc => h c (List.mem_cons_of_mem _ hc)]

lemma takeWhile_all {p : Char → Bool} {s : List Char}
    (h : ∀ c ∈ s, p c = true) : s.takeWhile p = s := by
  induction s with
  | nil => rfl
  | cons a t ih =>
      rw [List.takeWhile_cons, h a (List.mem_cons_self _ _), if_pos rfl,
        ih fun c hc => h c (List.mem_cons_of_mem _ hc)]

lemma dropWhile_all {p : Char → Bool} {s : List Char}
    (h : ∀ c ∈ s, p c = true) : s.dropWhile p = [] := by
  induction s with
  | nil => rfl
  | cons a t ih =>
      rw [List.dropWhile_cons, h a (List.mem_cons_self _ _), if_pos rfl,
        ih fun c hc => h c (List.mem_cons_of_mem _ hc)]

lemma dropWhile_none {p : Char → Bool} {s : List Char}
    (h : ∀ c ∈ s, p c = false) : s.dropWhile p = s := by
  cases s with
  | nil => rfl
  | cons a t =>
      rw [List.dropWhile_cons, h a (List.mem_cons_self _ _)]
      simp

lemma takeWhile_append_cons {p : Char → Bool} {a : List Char} {x : Char}
    {b : List Char} (ha : ∀ c ∈ a, p c = true) (hx : p x = false) :
    (a ++ x :: b).takeWhile p = a := by
  induction a with
  | nil => simp [List.takeWhile_cons, hx]
  | cons c t ih =>
      rw [List.cons_append, List.takeWhile_cons,
        ha c (List.mem_cons_self _ _), if_pos rfl,
        ih fun c hc => ha c (List.mem_cons_of_mem _ hc)]

lemma dropWhile_append_cons {p : Char → Bool} {a : List Char} {x : Char}
    {b : List Char} (ha : ∀ c ∈ a, p c = true) (hx : p x = false) :
    (a ++ x :: b).dropWhile p = x :: b := by
  induction a with
  | nil => simp [List.dropWhile_cons, hx]
  | cons c t ih =>
      rw [List.cons_append, List.dropWhile_cons,
        ha c (List.mem_cons_self _ _), if_pos rfl,
        ih fun c hc => ha c (List.mem_cons_of_mem _ hc)]

lemma pyStrip_eq_self {s : List Char} (h : ∀ c ∈ s, isWS c = false) :
    pyStrip s = s := by
  unfold pyStrip
  rw [dropWhile_none h,
    dropWhile_none fun c hc => h c (List.mem_reverse.mp hc),
    List.reverse_reverse]

/-! ## Lemmas on the deduplication stage -/

lemma dedupAux_sublist (seen : List String) (l : List ProductData) :
    (dedupAux seen l).Sublist l := by
  induction l generalizing seen with
  | nil => simp [dedupAux]
  | cons p ps ih =>
      simp only [dedupAux]
      split
      · exact (ih _).cons₂ p
      · exact (ih _).cons p

lemma mem_dedupAux_pos {seen : List String} {l : List ProductData}
    {r : ProductData} (h : r ∈ dedupAux seen l) : 0 < r.current_price := by
  induction l generalizing seen with
  | nil => simp [dedupAux] at h
  | cons p ps ih =>
      simp only [dedupAux] at h
      split at h
      next hc =>
        rcases List.mem_cons.mp h with h | h
        · exact h ▸ hc.2
        · exact ih h
      next => exact ih h

lemma mem_dedupAux_not_seen {seen : List String} {l : List ProductData}
    {r : ProductData} (h : r ∈ dedupAux seen l) : r.product_url ∉ seen := by
  induction l generalizing seen with
  | nil => simp [dedupAux] at h
  | cons p ps ih =>
      simp only [dedupAux] at h
      split at h
      next hc =>
        rcases List.mem_cons.mp h with h | h
        · exact h ▸ hc.1
        · intro hmem
          exact ih h (List.mem_cons_of_mem _ hmem)
      next => exact ih h

lemma dedupAux_pairwise (seen : List String) (l : List ProductData) :
    (dedupAux seen l).Pairwise (fun a b => a.product_url ≠ b.product_url) := by
  induction l generalizing seen with
  | nil => simp [dedupAux]
  | cons p ps ih =>
      simp only [dedupAux]
      split
      · refine List.Pairwise.cons (fun r hr heq => ?_) (ih _)
        exact mem_dedupAux_not_seen hr (heq ▸ List.mem_cons_self _ _)
      · exact ih _

lemma dedupAux_eq_self {seen : List String} {l : List ProductData}
    (h1 : ∀ r ∈ l, 0 < r.current_price)
    (h2 : l.Pairwise (fun a b => a.product_url ≠ b.product_url))
    (h3 : ∀ r ∈ l, r.product_url ∉ seen) :
    dedupAux seen l = l := by
  induction l generalizing seen with
  | nil => simp [dedupAux]
  | cons p ps ih =>
      have hcond : p.product_url ∉ seen ∧ 0 < p.current_price :=
        ⟨h3 p (List.mem_cons_self _ _), h1 p (List.mem_cons_self _ _)⟩
      simp only [dedupAux, if_pos hcond]
      refine congrArg (p :: ·) (ih ?_ (List.Pairwise.of_cons h2) ?_)
      · exact fun r hr => h1 r (List.mem_cons_of_mem _ hr)
      · intro r hr
        simp only [List.mem_cons]
        push_neg
        refine ⟨fun heq => (List.pairwise_cons.mp h2).1 r hr heq.symm, ?_⟩
        exact h3 r (List.mem_cons_of_mem _ hr)

lemma dedupAux_drop_mem {q : ProductData} :
    ∀ (l2 : List ProductData) (seen : List String),
      q.product_url ∈ seen →
      ∀ (l3 : List ProductData),
        dedupAux seen (l2 ++ q :: l3) = dedupAux seen (l2 ++ l3)
  | [], seen, hq, l3 => by
      have : ¬(q.product_url ∉ seen ∧ 0 < q.current_price) := by
        intro h; exact h.1 hq
      simp only [List.nil_append, dedupAux, if_neg this]
  | p :: t, seen, hq, l3 => by
      simp only [List.cons_append, dedupAux]
      split
      · exact congrArg (p :: ·)
          (dedupAux_drop_mem t _ (List.mem_cons_of_mem _ hq) l3)
      · exact dedupAux_drop_mem t _ hq l3

lemma dedupAux_first_wins {p q : ProductData}
    (hurl : p.product_url = q.product_url) (hpos : 0 < p.current_price) :
    ∀ (l1 : List ProductData) (seen : List String)
      (l2 l3 : List ProductData),
      dedupAux seen (l1 ++ p :: (l2 ++ q :: l3)) =
        dedupAux seen (l1 ++ p :: (l2 ++ l3))
  | [], seen, l2, l3 => by
      simp only [List.nil_append, dedupAux]
      split
      next hc =>
        exact congrArg (p :: ·)
          (dedupAux_drop_mem l2 _ (by simp [← hurl]) l3)
      next hc =>
        have hmem : q.product_url ∈ seen := by
          rcases not_and_or.mp hc with h | h
          · rw [← hurl]; exact not_not.mp h
          · exact absurd hpos h
        exact dedupAux_drop_mem l2 _ hmem l3
  | x :: t, seen, l2, l3 => by
      simp only [List.cons_append, dedupAux]
      split
      · exact congrArg (x :: ·) (dedupAux_first_wins hurl hpos t _ l2 l3)
      · exact dedupAux_first_wins hurl hpos t _ l2 l3

lemma mem_dedupAux_first {seen : List String} {l : List ProductData}
    {r : ProductData} (h : r ∈ dedupAux seen l) :
    ∃ l1 l2, l = l1 ++ r :: l2 ∧
      ∀ x ∈ l1, x.product_url = r.product_url →
        x.current_price ≤ 0 ∨ x.product_url ∈ seen := by
  induction l generalizing seen with
  | nil => simp [dedupAux] at h
  | cons p ps ih =>
      simp only [dedupAux] at h
      split at h
      next hc =>
        rcases List.mem_cons.mp h with h | h
        · exact ⟨[], ps, by simp [h], by simp⟩
        · obtain ⟨l1, l2, heq, hfirst⟩ := ih h
          have hnotseen : r.product_url ∉ p.product_url :: seen :=
            mem_dedupAux_not_seen h
          have hne : r.product_url ≠ p.product_url := fun heq' => by
            rw [heq'] at hnotseen
            exact hnotseen (List.mem_cons_self _ _)
          refine ⟨p :: l1, l2, by simp [heq], ?_⟩
          intro x hx hxr
          rcases List.mem_cons.mp hx with hxp | hxl
          · rw [hxp] at hxr; exact absurd hxr.symm hne
          · rcases hfirst x hxl hxr with h0 | hs
            · exact Or.inl h0
            · rcases List.mem_cons.mp hs with h1 | h2
              · exact absurd (hxr.symm.trans h1) hne
              · exact Or.inr h2
      next hc =>
        obtain ⟨l1, l2, heq, hfirst⟩ := ih h
        refine ⟨p :: l1, l2, by simp [heq], ?_⟩
        intro x hx hxr
        rcases List.mem_cons.mp hx with hxp | hxl
        · rw [hxp]
          rcases not_and_or.mp hc with h1 | h2
          · exact Or.inr (not_not.mp h1)
          · exact Or.inl (not_lt.mp h2)
        · exact hfirst x hxl hxr

/-! ## Lemmas on the reconciliation loop -/

/-- The upsert event of one loop iteration for a given product URL. -/
def urlUpsert (u : String) (e : Event) : Bool :=
  match e with
  | .upserted o => o.product_url = u
  | _ => false

lemma alertEventsOf_not_upsert {threshold : ℚ}
    {delivered : ProductData → Bool} {p : ProductData} {last : Option ℚ}
    {e : Event} (he : e ∈ alertEventsOf threshold delivered p last) :
    Event.isUpsert e = false ∧ ∀ u, urlUpsert u e = false := by
  rcases last with _ | lp
  · simp [alertEventsOf] at he
  · simp only [alertEventsOf] at he
    split at he
    · split at he
      · rcases List.mem_singleton.mp he with rfl
        exact ⟨rfl, fun u => rfl⟩
      · simp at he
    · simp at he

lemma alertEventsOf_any_isAlert (threshold : ℚ)
    (delivered : ProductData → Bool) (p : ProductData) (last : Option ℚ) :
    (alertEventsOf threshold delivered p last).any Event.isAlert =
      alertFires threshold last p.current_price := by
  rcases last with _ | lp
  · simp [alertEventsOf, alertFires, loopDropPct]
  · simp only [alertEventsOf, alertFires, loopDropPct]
    by_cases h1 : p.current_price < lp
    · by_cases h2 : threshold ≤ (lp - p.current_price) / lp * 100
      · simp [h1, h2, Event.isAlert]
      · simp [h1, h2]
    · simp [h1]

lemma processRecord_of_not_processable {threshold : ℚ}
    {delivered : ProductData → Bool} {store : String → Option ℚ}
    {p : ProductData} (hp : ¬processable p = true) :
    processRecord threshold delivered store p = ([], store) := by
  simp [processRecord, hp]

lemma processRecord_of_processable {threshold : ℚ}
    {delivered : ProductData → Bool} {store : String → Option ℚ}
    {p : ProductData} (hp : processable p = true) :
    (processRecord threshold delivered store p).1 =
      alertEventsOf threshold delivered p (store p.product_url) ++
        [Event.upserted (upsertRecord p (store p.product_url))] ∧
    (processRecord threshold delivered store p).2 =
      fun u =>
        if u = p.product_url then some p.current_price else store u := by
  simp [processRecord, hp]

lemma processRecord_countP {threshold : ℚ}
    {delivered : ProductData → Bool} {store : String → Option ℚ}
    {p : ProductData} (u : String) :
    (processRecord threshold delivered store p).1.countP (urlUpsert u) =
      if processable p = true ∧ p.product_url = u then 1 else 0 := by
  by_cases hp : processable p = true
  · rw [(processRecord_of_processable hp).1, List.countP_append]
    have h1 : (alertEventsOf threshold delivered p
        (store p.product_url)).countP (urlUpsert u) = 0 :=
      List.countP_eq_zero.mpr fun e he => by
        simp [(alertEventsOf_not_upsert he).2 u]
    rw [h1]
    by_cases hu : p.product_url = u
    · simp [List.countP_cons, urlUpsert, upsertRecord, hu, hp]
    · simp [List.countP_cons, urlUpsert, upsertRecord, hu, hp]
  · rw [processRecord_of_not_processable hp]
    simp [hp]

lemma runLoop_countP_zero {threshold : ℚ} {delivered : ProductData → Bool}
    {u : String} :
    ∀ (l : List ProductData), (∀ x ∈ l, x.product_url ≠ u) →
      ∀ store,
        (runLoop threshold delivered store l).countP (urlUpsert u) = 0
  | [], _, store => by simp [runLoop]
  | p :: ps, h, store => by
      simp only [runLoop, List.countP_append]
      rw [runLoop_countP_zero ps
        (fun x hx => h x (List.mem_cons_of_mem _ hx)) _]
      rw [processRecord_countP u]
      simp [h p (List.mem_cons_self _ _)]

lemma runLoop_countP_one {threshold : ℚ} {delivered : ProductData → Bool}
    {p : ProductData} :
    ∀ (l : List ProductData),
      l.Pairwise (fun a b => a.product_url ≠ b.product_url) →
      p ∈ l → processable p = true →
      ∀ store,
        (runLoop threshold delivered store l).countP
          (urlUpsert p.product_url) = 1
  | [], _, hmem, _, _ => absurd hmem (List.not_mem_nil _)
  | x :: xs, hpw, hmem, hp, store => by
      obtain ⟨hx, hpw'⟩ := List.pairwise_cons.mp hpw
      simp only [runLoop, List.countP_append]
      rcases List.mem_cons.mp hmem with rfl | hmem'
      · rw [processRecord_countP p.product_url]
        rw [runLoop_countP_zero xs (fun r hr => (hx r hr).symm) _]
        simp [hp]
      · rw [processRecord_countP p.product_url]
        rw [runLoop_countP_one xs hpw' hmem' hp _]
        simp [hx p hmem']

/-! ## Claim theorems: deduplication (C3, C9) and division safety (C10) -/

/-! ## Claim theorems: deduplication (C3, C9) and division safety (C10) -/

/-- C3 (counterexample): the deduplication stage of `main.py` does NOT
restrict its output to records with a non-empty `product_url`: a record
with a positive price and an empty URL passes the `seen_urls`/price guard
and appears in `unique_products`. -/
theorem C3_counterexample :
    dedup [⟨"X", 5, "M", ""⟩] = [⟨"X", 5, "M", ""⟩] ∧
    (ProductData.mk "X" 5 "M" "").product_url = "" ∧
    0 < (ProductData.mk "X" 5 "M" "").current_price := by
  refine ⟨rfl, rfl, by norm_num⟩

/-- C3 (amended): the dedup stage keeps at most one record per distinct
`product_url` (pairwise distinct URLs), preserves first-seen source order
(its output is a sublist of the input, and each kept record is the first
input record with its URL and a positive price), and keeps only records
with `current_price > 0`; it does not check URL non-emptiness — that is
enforced only by the reconciliation loop's validity guard, which produces
no events (no alert, no upsert) for an empty-URL record. -/
theorem C3_dedup_contract :
    (∀ l : List ProductData,
        (dedup l).Pairwise (fun a b => a.product_url ≠ b.product_url)) ∧
    (∀ l : List ProductData, (dedup l).Sublist l) ∧
    (∀ (l : List ProductData) (r : ProductData),
        r ∈ dedup l → 0 < r.current_price) ∧
    (∀ (l : List ProductData) (r : ProductData), r ∈ dedup l →
        ∃ l1 l2, l = l1 ++ r :: l2 ∧
          ∀ x ∈ l1, x.product_url = r.product_url → x.current_price ≤ 0) ∧
    (∀ (threshold : ℚ) (delivered : ProductData → Bool)
        (store : String → Option ℚ) (p : ProductData),
        p.product_url = "" →
        (processRecord threshold delivered store p).1 = []) := by
  refine ⟨fun l => dedupAux_pairwise [] l, fun l => dedupAux_sublist [] l,
    fun l r hr => mem_dedupAux_pos hr, fun l r hr => ?_, ?_⟩
  · obtain ⟨l1, l2, heq, hfirst⟩ := mem_dedupAux_first hr
    refine ⟨l1, l2, heq, fun x hx hxr => ?_⟩
    rcases hfirst x hx hxr with h0 | hs
    · exact h0
    · exact absurd hs (List.not_mem_nil _)
  · intro threshold delivered store p hurl
    have hproc : processable p = false := by
      simp [processable, hurl]
    simp [processRecord, hproc]

/-- C3 (witness): the amended dedup contract at concrete inputs — an
invalid record (price 0) is dropped, a duplicate URL is collapsed to the
first-seen record, and an empty-URL record produces no loop events. -/
theorem C3_dedup_contract_witness :
    (dedup [⟨"A", 5, "M", "u"⟩, ⟨"B", 7, "M", "u"⟩]).Pairwise
      (fun a b => a.product_url ≠ b.product_url) ∧
    (0 : ℚ) < (ProductData.mk "A" 5 "M" "u").current_price ∧
    (processRecord 5 (fun _ => true) (fun _ => none) ⟨"A", 5, "M", ""⟩).1 =
      [] :=
  ⟨C3_dedup_contract.1 [⟨"A", 5, "M", "u"⟩, ⟨"B", 7, "M", "u"⟩],
   C3_dedup_contract.2.2.1 [⟨"A", 5, "M", "u"⟩] ⟨"A", 5, "M", "u"⟩
     (by decide),
   C3_dedup_contract.2.2.2.2 5 (fun _ => true) (fun _ => none)
     ⟨"A", 5, "M", ""⟩ rfl⟩

/-- C9: deduplication is idempotent — running the dedup stage on its own
output (with a fresh `seen_urls` set) returns the output unchanged — and
first-seen wins: if a record `p` with positive price precedes a record `q`
with the same `product_url`, the dedup output is unchanged by deleting
`q`, i.e. only the first-encountered record for a URL is ever kept. -/
theorem C9_dedup_idempotent :
    (∀ l : List ProductData, dedup (dedup l) = dedup l) ∧
    (∀ (l1 l2 l3 : List ProductData) (p q : ProductData),
        p.product_url = q.product_url → 0 < p.current_price →
        dedup (l1 ++ p :: (l2 ++ q :: l3)) =
          dedup (l1 ++ p :: (l2 ++ l3))) := by
  constructor
  · intro l
    exact dedupAux_eq_self (fun r hr => mem_dedupAux_pos hr)
      (dedupAux_pairwise [] l) (fun r _ => List.not_mem_nil _)
  · intro l1 l2 l3 p q hurl hpos
    exact dedupAux_first_wins hurl hpos l1 [] l2 l3

/-- C9 (witness): idempotence and first-wins at concrete inputs — two
records sharing URL `"u"` with different prices collapse to the first. -/
theorem C9_dedup_idempotent_witness :
    dedup (dedup [⟨"A", 5, "M", "u"⟩, ⟨"B", 7, "M", "u"⟩]) =
      dedup [⟨"A", 5, "M", "u"⟩, ⟨"B", 7, "M", "u"⟩] ∧
    dedup [⟨"A", 5, "M", "u"⟩, ⟨"B", 7, "M", "u"⟩] =
      dedup [⟨"A", 5, "M", "u"⟩] :=
  ⟨C9_dedup_idempotent.1 [⟨"A", 5, "M", "u"⟩, ⟨"B", 7, "M", "u"⟩],
   C9_dedup_idempotent.2 [] [] [] ⟨"A", 5, "M", "u"⟩ ⟨"B", 7, "M", "u"⟩
     rfl (by norm_num)⟩

/-- C10: neither drop-percentage division divides by zero — in the
reconciliation loop the divisor `last_price` is only used when it exceeds
the (positive, by dedup) current price, and in `upsert_price` the divisor
`previous_price` is only used under the guard `previous_price > 0`. -/
theorem C10_no_division_by_zero :
    (∀ (l : List ProductData) (p : ProductData) (lp : ℚ),
        p ∈ dedup l → p.current_price < lp → lp ≠ 0) ∧
    (∀ (p : ProductData) (pp : ℚ),
        (upsertRecord p (some pp)).price_drop_pct ≠ none → pp ≠ 0) := by
  constructor
  · intro l p lp hmem hlt
    have hpos : 0 < p.current_price := mem_dedupAux_pos hmem
    exact ne_of_gt (hpos.trans hlt)
  · intro p pp hne hzero
    rw [hzero] at hne
    simp [upsertRecord] at hne

/-- C10 (witness): division safety at concrete inputs — a last price of 2
against a deduplicated record of price 1, and a previous price of 5 in
the upsert. -/
theorem C10_no_division_by_zero_witness : (2 : ℚ) ≠ 0 ∧ (5 : ℚ) ≠ 0 :=
  ⟨C10_no_division_by_zero.1 [⟨"A", 1, "M", "u"⟩] ⟨"A", 1, "M", "u"⟩ 2
     (by decide) (by norm_num),
   C10_no_division_by_zero.2 ⟨"A", 1, "M", "u"⟩ 5 (by decide)⟩

lemma round2_eq_of_lt_half {x : ℚ} {n : ℤ} (h1 : (n : ℚ) ≤ x * 100)
    (h2 : x * 100 < n + 1 / 2) : round2 x = (n : ℚ) / 100 := by
  have hf : ⌊x * 100⌋ = n := by
    rw [Int.floor_eq_iff]
    exact ⟨h1, by linarith⟩
  simp only [round2]
  rw [hf, if_pos (by linarith)]

/-! ## Claim theorems: reconciliation and persistence (C1, C5-C8) -/

/-- C1: for a record with a known last price, an alert is triggered iff
the price strictly decreased and the unrounded drop percentage
`(last - current) / last * 100` is at least the threshold; when
`current >= last` no alert fires and no drop percentage is computed; and
the loop's emitted alert events agree with this decision exactly. -/
theorem C1_alert_decision :
    (∀ threshold lp current : ℚ,
        alertFires threshold (some lp) current = true ↔
          current < lp ∧ threshold ≤ (lp - current) / lp * 100) ∧
    (∀ threshold lp current : ℚ, lp ≤ current →
        alertFires threshold (some lp) current = false ∧
        loopDropPct (some lp) current = none) ∧
    (∀ (threshold : ℚ) (delivered : ProductData → Bool)
        (store : String → Option ℚ) (p : ProductData),
        (processRecord threshold delivered store p).1.any Event.isAlert =
            true ↔
          processable p = true ∧
            alertFires threshold (store p.product_url) p.current_price =
              true) := by
  refine ⟨?_, ?_, ?_⟩
  · intro threshold lp current
    by_cases h1 : current < lp
    · simp [alertFires, loopDropPct, h1]
    · simp [alertFires, loopDropPct, h1]
  · intro threshold lp current h
    simp [alertFires, loopDropPct, not_lt.mpr h]
  · intro threshold delivered store p
    by_cases hp : processable p = true
    · rw [(processRecord_of_processable hp).1, List.any_append]
      rw [alertEventsOf_any_isAlert]
      simp [Event.isAlert, hp]
    · rw [processRecord_of_not_processable hp]
      simp [hp]

/-- C1 (witness): the alert decision at `last = 100`, `current = 90`,
`threshold = 5` (alert fires), at `current = 110` (no alert, no drop
computed), and the loop-event agreement at a concrete processed record. -/
theorem C1_alert_decision_witness :
    (alertFires 5 (some 100) 90 = true ↔
      (90 : ℚ) < 100 ∧ (5 : ℚ) ≤ (100 - 90) / 100 * 100) ∧
    (alertFires 5 (some 100) 110 = false ∧
      loopDropPct (some 100) 110 = none) ∧
    ((processRecord 5 (fun _ => true) (fun _ => some 100)
        ⟨"A", 90, "M", "u"⟩).1.any Event.isAlert = true ↔
      processable ⟨"A", 90, "M", "u"⟩ = true ∧
        alertFires 5 (some 100) 90 = true) :=
  ⟨C1_alert_decision.1 5 100 90,
   C1_alert_decision.2.1 5 100 110 (by norm_num),
   C1_alert_decision.2.2 5 (fun _ => true) (fun _ => some 100)
     ⟨"A", 90, "M", "u"⟩⟩

/-- C5 (counterexample): a persisted observation with known previous
price `10` and current price `12` (no drop computed in the loop, since
the price rose) still carries a non-null `price_drop_pct`, namely
`-20`. -/
theorem C5_counterexample :
    (upsertRecord ⟨"A", 12, "M", "u"⟩ (some 10)).previous_price =
      some 10 ∧
    (10 : ℚ) ≤ (ProductData.mk "A" 12 "M" "u").current_price ∧
    (upsertRecord ⟨"A", 12, "M", "u"⟩ (some 10)).price_drop_pct =
      some (-20) := by
  refine ⟨rfl, by norm_num, ?_⟩
  norm_num [upsertRecord, round2]

/-- C5 (amended): `upsert_price` recomputes the drop percentage on its
own: the persisted `price_drop_pct` is
`round2 ((previous - current) / previous * 100)` whenever the previous
price is present and positive — even when the price rose or stayed equal,
in which case the stored value is zero or negative rather than null — and
is null exactly when the previous price is absent or non-positive. -/
theorem C5_persisted_drop_pct :
    ∀ (p : ProductData) (pp : ℚ),
      ((upsertRecord p (some pp)).price_drop_pct =
        if 0 < pp then
          some (round2 ((pp - p.current_price) / pp * 100))
        else none) ∧
      (upsertRecord p none).price_drop_pct = none :=
  fun _ _ => ⟨rfl, rfl⟩

/-- C6: the alert decision compares the threshold against the exact
(unrounded) quotient, while the persisted `price_drop_pct` is the same
percentage rounded to two decimals; at `last = 3`, `current = 2`,
`threshold = 100/3` the exact comparison fires although the rounded value
is below the threshold. -/
theorem C6_unrounded_threshold_comparison :
    (∀ threshold lp current : ℚ, current < lp →
        alertFires threshold (some lp) current =
          decide (threshold ≤ (lp - current) / lp * 100)) ∧
    (∀ (p : ProductData) (lp : ℚ), 0 < lp →
        (upsertRecord p (some lp)).price_drop_pct =
          some (round2 ((lp - p.current_price) / lp * 100))) ∧
    (alertFires (100 / 3) (some 3) 2 = true ∧
      ¬((100 / 3 : ℚ) ≤ round2 ((3 - 2) / 3 * 100))) := by
  refine ⟨?_, ?_, ?_, ?_⟩
  · intro threshold lp current h
    simp [alertFires, loopDropPct, h]
  · intro p lp h
    simp [upsertRecord, h]
  · have h : ((3 : ℚ) - 2) / 3 * 100 = 100 / 3 := by norm_num
    simp [alertFires, loopDropPct, h, show (2 : ℚ) < 3 by norm_num]
  · rw [show ((3 : ℚ) - 2) / 3 * 100 = 100 / 3 by norm_num,
      round2_eq_of_lt_half (n := 3333) (by norm_num) (by norm_num)]
    norm_num

/-- C6 (witness): the unrounded comparison and the rounded persistence at
`last = 100`, `current = 90`. -/
theorem C6_unrounded_threshold_comparison_witness :
    (alertFires 5 (some 100) 90 =
      decide ((5 : ℚ) ≤ (100 - 90) / 100 * 100)) ∧
    ((upsertRecord ⟨"A", 90, "M", "u"⟩ (some 100)).price_drop_pct =
      some (round2 ((100 - 90) / 100 * 100))) :=
  ⟨C6_unrounded_threshold_comparison.1 5 100 90 (by norm_num),
   C6_unrounded_threshold_comparison.2.1 ⟨"A", 90, "M", "u"⟩ 100
     (by norm_num)⟩

/-- C7: for every valid record, one loop iteration emits exactly one
upsert — whatever the threshold, the store and the delivery outcome — and
the persisted `previous_price` is exactly the store's answer before the
write (after which the store answers the new current price); over the
whole loop on the deduplicated records, exactly one upsert per URL. -/
theorem C7_upsert_exactly_once :
    (∀ (threshold : ℚ) (delivered : ProductData → Bool)
        (store : String → Option ℚ) (p : ProductData),
        processable p = true →
        (processRecord threshold delivered store p).1.filter
            Event.isUpsert =
          [Event.upserted (upsertRecord p (store p.product_url))] ∧
        (upsertRecord p (store p.product_url)).previous_price =
          store p.product_url ∧
        (processRecord threshold delivered store p).2 p.product_url =
          some p.current_price) ∧
    (∀ (threshold : ℚ) (delivered : ProductData → Bool)
        (store : String → Option ℚ) (l : List ProductData)
        (p : ProductData), p ∈ dedup l → processable p = true →
        (runLoop threshold delivered store (dedup l)).countP
          (urlUpsert p.product_url) = 1) := by
  constructor
  · intro threshold delivered store p hp
    obtain ⟨h1, h2⟩ :=
      @processRecord_of_processable threshold delivered store p hp
    refine ⟨?_, rfl, ?_⟩
    · rw [h1, List.filter_append]
      have : (alertEventsOf threshold delivered p
          (store p.product_url)).filter Event.isUpsert = [] :=
        List.filter_eq_nil_iff.mpr fun e he => by
          simp [(alertEventsOf_not_upsert he).1]
      rw [this]
      simp [Event.isUpsert]
    · rw [h2]
      simp
  · intro threshold delivered store l p hmem hp
    exact runLoop_countP_one (dedup l) (dedupAux_pairwise [] l) hmem hp
      store

/-- C7 (witness): a valid record with a stored last price of 10 yields
exactly one upsert event carrying `previous_price = some 10`, the store
then answers the new price 9, and the loop over its dedup emits one
upsert for its URL. -/
theorem C7_upsert_exactly_once_witness :
    ((processRecord 5 (fun _ => false)
        (fun u => if u = "u" then some 10 else none)
        ⟨"A", 9, "M", "u"⟩).1.filter Event.isUpsert =
      [Event.upserted (upsertRecord ⟨"A", 9, "M", "u"⟩ (some 10))] ∧
      (upsertRecord ⟨"A", 9, "M", "u"⟩ (some 10)).previous_price =
        some 10 ∧
      (processRecord 5 (fun _ => false)
        (fun u => if u = "u" then some 10 else none)
        ⟨"A", 9, "M", "u"⟩).2 "u" = some 9) ∧
    (runLoop 5 (fun _ => false) (fun _ => none)
        (dedup [⟨"A", 9, "M", "u"⟩])).countP (urlUpsert "u") = 1 :=
  ⟨C7_upsert_exactly_once.1 5 (fun _ => false)
     (fun u => if u = "u" then some 10 else none) ⟨"A", 9, "M", "u"⟩
     (by decide),
   C7_upsert_exactly_once.2 5 (fun _ => false) (fun _ => none)
     [⟨"A", 9, "M", "u"⟩] ⟨"A", 9, "M", "u"⟩ (by decide) (by decide)⟩

/-- C8: a record whose URL has no prior store entry (`get_last_price`
returns none) never triggers an alert, whatever its price; if it is
valid, it is persisted — as the only emitted event — with
`previous_price` absent and `price_drop_pct` absent. -/
theorem C8_first_sighting :
    ∀ (threshold : ℚ) (delivered : ProductData → Bool)
      (store : String → Option ℚ) (p : ProductData),
      store p.product_url = none →
      (processRecord threshold delivered store p).1.any Event.isAlert =
          false ∧
      (processable p = true →
        (processRecord threshold delivered store p).1 =
          [Event.upserted (upsertRecord p none)] ∧
        (upsertRecord p none).previous_price = none ∧
        (upsertRecord p none).price_drop_pct = none) := by
  intro threshold delivered store p hnone
  by_cases hp : processable p = true
  · obtain ⟨h1, _⟩ :=
      @processRecord_of_processable threshold delivered store p hp
    rw [hnone] at h1
    refine ⟨?_, fun _ => ⟨?_, rfl, rfl⟩⟩
    · rw [h1]
      simp [alertEventsOf, Event.isAlert]
    · rw [h1]
      simp [alertEventsOf]
  · rw [processRecord_of_not_processable hp]
    exact ⟨rfl, fun h => absurd h hp⟩

/-- C8 (witness): a first-sighted record of price 7 produces no alert and
one observation with absent previous price and absent drop. -/
theorem C8_first_sighting_witness :
    (processRecord 5 (fun _ => true) (fun _ => none)
        ⟨"A", 7, "M", "u"⟩).1.any Event.isAlert = false ∧
    (processRecord 5 (fun _ => true) (fun _ => none)
        ⟨"A", 7, "M", "u"⟩).1 =
      [Event.upserted (upsertRecord ⟨"A", 7, "M", "u"⟩ none)] ∧
    (upsertRecord ⟨"A", 7, "M", "u"⟩ none).previous_price = none ∧
    (upsertRecord ⟨"A", 7, "M", "u"⟩ none).price_drop_pct = none :=
  ⟨(C8_first_sighting 5 (fun _ => true) (fun _ => none)
      ⟨"A", 7, "M", "u"⟩ rfl).1,
   (C8_first_sighting 5 (fun _ => true) (fun _ => none)
      ⟨"A", 7, "M", "u"⟩ rfl).2 (by decide)⟩

/-! ## Lemmas on the price-string parser -/

lemma parseMantissa_dot {a b : List Char}
    (ha : ∀ c ∈ a, isAsciiDigit c = true)
    (hb : ∀ c ∈ b, isAsciiDigit c = true) (hane : a ≠ []) :
    parseMantissa (a ++ '.' :: b) =
      some ((digitsVal a : ℚ) + (digitsVal b : ℚ) / 10 ^ b.length) := by
  simp only [parseMantissa,
    takeWhile_append_cons ha (by decide : isAsciiDigit '.' = false),
    dropWhile_append_cons ha (by decide : isAsciiDigit '.' = false),
    takeWhile_all hb, dropWhile_all hb, if_true]
  rw [if_neg (by simp [hane])]
  simp [parseExpPart, zpow_zero]

lemma lowerChar_digit {c : Char} (h : isAsciiDigit c = true) :
    lowerChar c = c := by
  simp only [isAsciiDigit, decide_eq_true_eq] at h
  rw [lowerChar, if_neg (by omega)]

lemma pyFloatUnsigned_digit_head {neg : Bool} {c0 : Char} {t : List Char}
    (h0 : isAsciiDigit c0 = true) :
    pyFloatUnsigned neg (c0 :: t) =
      (parseMantissa (c0 :: t)).map
        fun q => PyFloat.finite (if neg then -q else q) := by
  have hi : c0 ≠ 'i' :=
    digit_ne_of h0 (show isAsciiDigit 'i' = false from by decide)
  have hn : c0 ≠ 'n' :=
    digit_ne_of h0 (show isAsciiDigit 'n' = false from by decide)
  rw [pyFloatUnsigned,
    if_neg (by simp [lowerChar_digit h0, hi]),
    if_neg (by simp [lowerChar_digit h0, hn])]

lemma pyFloat_digits_dot {a b : List Char}
    (ha : ∀ c ∈ a, isAsciiDigit c = true)
    (hb : ∀ c ∈ b, isAsciiDigit c = true) (hane : a ≠ []) :
    pyFloat (a ++ '.' :: b) =
      some (PyFloat.finite
        ((digitsVal a : ℚ) + (digitsVal b : ℚ) / 10 ^ b.length)) := by
  have hws : ∀ c ∈ a ++ '.' :: b, isWS c = false := by
    intro c hc
    rcases List.mem_append.mp hc with h1 | h2
    · exact digit_not_ws (ha c h1)
    · rcases List.mem_cons.mp h2 with rfl | h3
      · decide
      · exact digit_not_ws (hb c h3)
  rcases a with _ | ⟨c0, a'⟩
  · exact absurd rfl hane
  have h0 : isAsciiDigit c0 = true := ha c0 (List.mem_cons_self _ _)
  have heq : pyStrip (c0 :: (a' ++ '.' :: b)) = c0 :: (a' ++ '.' :: b) :=
    pyStrip_eq_self hws
  simp only [pyFloat, List.cons_append, heq]
  rw [if_neg (digit_ne_of h0 (show isAsciiDigit '+' = false from by
        decide)),
    if_neg (digit_ne_of h0 (show isAsciiDigit '-' = false from by
        decide)),
    pyFloatUnsigned_digit_head h0]
  have hm : parseMantissa (c0 :: (a' ++ '.' :: b)) =
      some ((digitsVal (c0 :: a') : ℚ) +
        (digitsVal b : ℚ) / 10 ^ b.length) :=
    parseMantissa_dot ha hb hane
  rw [hm]
  rfl

lemma pyStrip_shape {c0 dl : Char} {mid : List Char}
    (h0 : isWS c0 = false) (hl : isWS dl = false) :
    pyStrip (c0 :: (mid ++ [dl, ' '])) = c0 :: (mid ++ [dl]) := by
  unfold pyStrip
  rw [List.dropWhile_cons, h0]
  simp only [Bool.false_eq_true, if_false]
  rw [show (c0 :: (mid ++ [dl, ' '])).reverse =
      ' ' :: dl :: (mid.reverse ++ [c0]) from by simp]
  rw [List.dropWhile_cons, show isWS ' ' = true from by decide,
    if_pos rfl, List.dropWhile_cons, hl]
  simp

lemma trNormalize_shape {pre : List Char} {d1 d2 : Char}
    (hpre : ∀ c ∈ pre,
      c ≠ '₺' ∧ c ≠ '\xa0' ∧ c ≠ ',' ∧ isWS c = false)
    (hne : pre ≠ []) (h1 : isAsciiDigit d1 = true)
    (h2 : isAsciiDigit d2 = true) :
    trNormalize (pre ++ ',' :: [d1, d2, ' ', '₺']) =
      pre.filter (fun c => c ≠ '.') ++ '.' :: [d1, d2] := by
  have hf1 : (pre ++ ',' :: [d1, d2, ' ', '₺']).filter
      (fun c => c ≠ '₺') = pre ++ [',', d1, d2, ' '] := by
    rw [show pre ++ ',' :: [d1, d2, ' ', '₺'] =
        (pre ++ [',', d1, d2, ' ']) ++ ['₺'] from by simp]
    rw [List.filter_append, filter_ne_eq_self, List.filter_cons_of_neg
      (by simp), List.filter_nil, List.append_nil]
    intro c hc
    rcases List.mem_append.mp hc with hcp | hcd
    · exact (hpre c hcp).1
    · fin_cases hcd
      · decide
      · exact digit_ne_of h1 (by decide)
      · exact digit_ne_of h2 (by decide)
      · decide
  have hf2 : (pre ++ [',', d1, d2, ' ']).filter
      (fun c => c ≠ '\xa0') = pre ++ [',', d1, d2, ' '] := by
    apply filter_ne_eq_self
    intro c hc
    rcases List.mem_append.mp hc with hcp | hcd
    · exact (hpre c hcp).2.1
    · fin_cases hcd
      · decide
      · exact digit_ne_of h1 (by decide)
      · exact digit_ne_of h2 (by decide)
      · decide
  have hstrip : pyStrip (pre ++ [',', d1, d2, ' ']) =
      pre ++ [',', d1, d2] := by
    rcases pre with _ | ⟨c0, pre'⟩
    · exact absurd rfl hne
    rw [show c0 :: pre' ++ [',', d1, d2, ' '] =
        c0 :: ((pre' ++ [',', d1]) ++ [d2, ' ']) from by simp]
    rw [pyStrip_shape (hpre c0 (List.mem_cons_self _ _)).2.2.2
      (digit_not_ws h2)]
    simp
  have hd1 : d1 ≠ '.' :=
    digit_ne_of h1 (show isAsciiDigit '.' = false from by decide)
  have hd2 : d2 ≠ '.' :=
    digit_ne_of h2 (show isAsciiDigit '.' = false from by decide)
  have hd1c : d1 ≠ ',' :=
    digit_ne_of h1 (show isAsciiDigit ',' = false from by decide)
  have hd2c : d2 ≠ ',' :=
    digit_ne_of h2 (show isAsciiDigit ',' = false from by decide)
  have hf3 : (pre ++ [',', d1, d2]).filter (fun c => c ≠ '.') =
      pre.filter (fun c => c ≠ '.') ++ [',', d1, d2] := by
    rw [List.filter_append]
    congr 1
    rw [List.filter_cons_of_pos (by decide),
      List.filter_cons_of_pos (by simp [hd1]),
      List.filter_cons_of_pos (by simp [hd2]),
      List.filter_nil]
  simp only [trNormalize, hf1, hf2, hstrip, hf3, List.map_append]
  rw [map_decomma_eq_self (fun c hc =>
    (hpre c (List.mem_of_mem_filter hc)).2.2.1)]
  simp [hd1c, hd2c]

lemma takeWhile_digit_nil {s : List Char}
    (h : ∀ c ∈ s, isAsciiDigit c = false) :
    s.takeWhile isAsciiDigit = [] := by
  cases s with
  | nil => rfl
  | cons a t =>
      rw [List.takeWhile_cons, h a (List.mem_cons_self _ _)]
      simp

lemma parseMantissa_none {s : List Char}
    (h : ∀ c ∈ s, isAsciiDigit c = false) : parseMantissa s = none := by
  cases s with
  | nil => rfl
  | cons c t =>
      have ht : ∀ x ∈ t, isAsciiDigit x = false :=
        fun x hx => h x (List.mem_cons_of_mem _ hx)
      by_cases hc : c = '.'
      · subst hc
        simp only [parseMantissa, dropWhile_none h, if_true]
        rw [if_pos ⟨takeWhile_digit_nil h, takeWhile_digit_nil ht⟩]
      · simp only [parseMantissa, dropWhile_none h]
        rw [if_neg hc, if_pos (takeWhile_digit_nil h)]

lemma mem_of_mem_pyStrip {c : Char} {s : List Char}
    (hc : c ∈ pyStrip s) : c ∈ s := by
  unfold pyStrip at hc
  rw [List.mem_reverse] at hc
  have h1 := (List.dropWhile_sublist _).subset hc
  rw [List.mem_reverse] at h1
  exact (List.dropWhile_sublist _).subset h1

lemma pyFloatUnsigned_no_digit {neg : Bool} {t : List Char}
    (h : ∀ c ∈ t, isAsciiDigit c = false) :
    pyFloatUnsigned neg t = some (PyFloat.inf neg) ∨
    pyFloatUnsigned neg t = some PyFloat.nan ∨
    pyFloatUnsigned neg t = none := by
  rw [pyFloatUnsigned]
  by_cases h1 : t.map lowerChar = ['i', 'n', 'f'] ∨
      t.map lowerChar = ['i', 'n', 'f', 'i', 'n', 'i', 't', 'y']
  · rw [if_pos h1]
    exact Or.inl rfl
  · rw [if_neg h1]
    by_cases h2 : t.map lowerChar = ['n', 'a', 'n']
    · rw [if_pos h2]
      exact Or.inr (Or.inl rfl)
    · rw [if_neg h2, parseMantissa_none h]
      exact Or.inr (Or.inr rfl)

lemma pyFloat_no_digit {s : List Char}
    (h : ∀ c ∈ s, isAsciiDigit c = false) :
    pyFloat s = none ∨ pyFloat s = some (PyFloat.inf false) ∨
    pyFloat s = some (PyFloat.inf true) ∨
    pyFloat s = some PyFloat.nan := by
  have hsub : ∀ c ∈ pyStrip s, isAsciiDigit c = false :=
    fun c hc => h c (mem_of_mem_pyStrip hc)
  rcases hps : pyStrip s with _ | ⟨c, u⟩
  · left
    simp [pyFloat, hps]
  · rw [hps] at hsub
    have hu : ∀ x ∈ u, isAsciiDigit x = false :=
      fun x hx => hsub x (List.mem_cons_of_mem _ hx)
    simp only [pyFloat, hps]
    by_cases hplus : c = '+'
    · rw [if_pos hplus]
      rcases @pyFloatUnsigned_no_digit false u hu with h' | h' | h'
      · exact Or.inr (Or.inl h')
      · exact Or.inr (Or.inr (Or.inr h'))
      · exact Or.inl h'
    · rw [if_neg hplus]
      by_cases hminus : c = '-'
      · rw [if_pos hminus]
        rcases @pyFloatUnsigned_no_digit true u hu with h' | h' | h'
        · exact Or.inr (Or.inr (Or.inl h'))
        · exact Or.inr (Or.inr (Or.inr h'))
        · exact Or.inl h'
      · rw [if_neg hminus]
        rcases @pyFloatUnsigned_no_digit false (c :: u) hsub
          with h' | h' | h'
        · exact Or.inr (Or.inl h')
        · exact Or.inr (Or.inr (Or.inr h'))
        · exact Or.inl h'

lemma trNormalize_no_digit {raw : List Char}
    (h : ∀ c ∈ raw, isAsciiDigit c = false) :
    ∀ c ∈ trNormalize raw, isAsciiDigit c = false := by
  intro c hc
  simp only [trNormalize, List.mem_map] at hc
  obtain ⟨c', hc', rfl⟩ := hc
  by_cases hcomma : c' = ','
  · rw [if_pos hcomma]
    decide
  · rw [if_neg hcomma]
    exact h c' (List.mem_of_mem_filter (List.mem_of_mem_filter
      (mem_of_mem_pyStrip (List.mem_of_mem_filter hc'))))

/-! ## Claim theorems: text chunking (C2) -/

/-- C2: `chunk_text` DROPS non-whitespace content.  On `"abcdef"` with
chunk size 2 no window contains a newline, so the code sets the break
point to the window boundary and then advances `start = break_point + 1`,
silently skipping the boundary character: the result is `["ab", "de"]`
and the non-whitespace characters `'c'` and `'f'` of the input appear in
no chunk.  (The chunk-length bound itself holds; only the no-loss half of
the claim fails.) -/
theorem C2_chunk_drops_content :
    chunk_text ("abcdef".toList) 2 = [['a', 'b'], ['d', 'e']] ∧
    'c' ∈ "abcdef".toList ∧
    isWS 'c' = false ∧
    'c' ∉ [['a', 'b'], ['d', 'e']].flatten ∧
    'f' ∈ "abcdef".toList ∧
    'f' ∉ [['a', 'b'], ['d', 'e']].flatten := by
  decide

/-! ## Claim theorems: Turkish price parsing (C4) -/

/-- C4 (counterexample): the claim that every digit-free string yields
`0.0` is false of `float()`: CPython accepts the named special `inf`, so
`_parse_tr_price("inf")` returns positive infinity, not `0.0`. -/
theorem C4_counterexample :
    (['i', 'n', 'f'] : List Char).all (fun c => !(isAsciiDigit c)) =
      true ∧
    parse_tr_price ['i', 'n', 'f'] = PyFloat.inf false ∧
    PyFloat.inf false ≠ PyFloat.finite 0 := by
  decide

/-- C4 (amended): `_parse_tr_price` maps `"<int>,<dd> ₺"` and
`"<int>.<int>,<dd> ₺"` to the numeric value read with the separators
swapped (the digits around the thousands dot concatenate into the integer
part, and the two digits after the comma become cents); any input whose
normalised form does not parse as a float — the empty string in
particular — yields `0.0`, and the function (total by construction) never
raises.  A string without digits, however, is not always unparsable:
`float()` also accepts the named specials `inf`/`infinity`/`nan`
(case-insensitive, optionally signed), so a digit-free input yields
`0.0` or one of the non-finite special values — e.g. `"inf"` yields
positive infinity while `"abc"` yields `0.0`. -/
theorem C4_parse_tr_price :
    (∀ (i : List Char) (d1 d2 : Char),
        i ≠ [] → (∀ c ∈ i, isAsciiDigit c = true) →
        isAsciiDigit d1 = true → isAsciiDigit d2 = true →
        parse_tr_price (i ++ ',' :: [d1, d2, ' ', '₺']) =
          PyFloat.finite
            ((digitsVal i : ℚ) + (digitsVal [d1, d2] : ℚ) / 100)) ∧
    (∀ (i j : List Char) (d1 d2 : Char),
        i ≠ [] → j ≠ [] → (∀ c ∈ i, isAsciiDigit c = true) →
        (∀ c ∈ j, isAsciiDigit c = true) →
        isAsciiDigit d1 = true → isAsciiDigit d2 = true →
        parse_tr_price (i ++ '.' :: (j ++ ',' :: [d1, d2, ' ', '₺'])) =
          PyFloat.finite
            ((digitsVal (i ++ j) : ℚ) +
              (digitsVal [d1, d2] : ℚ) / 100)) ∧
    (∀ raw : List Char, pyFloat (trNormalize raw) = none →
        parse_tr_price raw = PyFloat.finite 0) ∧
    parse_tr_price [] = PyFloat.finite 0 ∧
    (∀ raw : List Char, (∀ c ∈ raw, isAsciiDigit c = false) →
        parse_tr_price raw = PyFloat.finite 0 ∨
        parse_tr_price raw = PyFloat.inf false ∨
        parse_tr_price raw = PyFloat.inf true ∨
        parse_tr_price raw = PyFloat.nan) ∧
    parse_tr_price ['i', 'n', 'f'] = PyFloat.inf false ∧
    parse_tr_price ['a', 'b', 'c'] = PyFloat.finite 0 := by
  refine ⟨?_, ?_, ?_, rfl, ?_, by decide, by decide⟩
  · intro i d1 d2 hine hi h1 h2
    have hd : ∀ c ∈ [d1, d2], isAsciiDigit c = true := by
      intro c hc
      fin_cases hc
      · exact h1
      · exact h2
    have hpre : ∀ c ∈ i,
        c ≠ '₺' ∧ c ≠ '\xa0' ∧ c ≠ ',' ∧ isWS c = false := by
      intro c hc
      exact ⟨digit_ne_of (hi c hc) (by decide),
        digit_ne_of (hi c hc) (by decide),
        digit_ne_of (hi c hc) (by decide), digit_not_ws (hi c hc)⟩
    have hn := trNormalize_shape hpre hine h1 h2
    rw [filter_ne_eq_self (fun c hc =>
      digit_ne_of (hi c hc) (show isAsciiDigit '.' = false from by
        decide))] at hn
    rw [parse_tr_price, hn, pyFloat_digits_dot hi hd hine]
    norm_num
  · intro i j d1 d2 hine hjne hi hj h1 h2
    have hd : ∀ c ∈ [d1, d2], isAsciiDigit c = true := by
      intro c hc
      fin_cases hc
      · exact h1
      · exact h2
    have hpre : ∀ c ∈ i ++ '.' :: j,
        c ≠ '₺' ∧ c ≠ '\xa0' ∧ c ≠ ',' ∧ isWS c = false := by
      intro c hc
      rcases List.mem_append.mp hc with hci | hcr
      · exact ⟨digit_ne_of (hi c hci) (by decide),
          digit_ne_of (hi c hci) (by decide),
          digit_ne_of (hi c hci) (by decide), digit_not_ws (hi c hci)⟩
      · rcases List.mem_cons.mp hcr with rfl | hcj
        · exact ⟨by decide, by decide, by decide, by decide⟩
        · exact ⟨digit_ne_of (hj c hcj) (by decide),
            digit_ne_of (hj c hcj) (by decide),
            digit_ne_of (hj c hcj) (by decide), digit_not_ws (hj c hcj)⟩
    have hprene : i ++ '.' :: j ≠ [] := by
      rcases i with _ | ⟨c0, i'⟩
      · exact absurd rfl hine
      · simp
    have hn := trNormalize_shape hpre hprene h1 h2
    have hfil : (i ++ '.' :: j).filter (fun c => c ≠ '.') = i ++ j := by
      rw [List.filter_append, filter_ne_eq_self (fun c hc =>
        digit_ne_of (hi c hc) (show isAsciiDigit '.' = false from by
          decide)),
        List.filter_cons_of_neg (by simp), filter_ne_eq_self
          (fun c hc => digit_ne_of (hj c hc)
            (show isAsciiDigit '.' = false from by decide))]
    rw [hfil] at hn
    have hij : ∀ c ∈ i ++ j, isAsciiDigit c = true := by
      intro c hc
      rcases List.mem_append.mp hc with h | h
      · exact hi c h
      · exact hj c h
    have hijne : i ++ j ≠ [] := by
      rcases i with _ | ⟨c0, i'⟩
      · exact absurd rfl hine
      · simp
    rw [show i ++ '.' :: (j ++ ',' :: [d1, d2, ' ', '₺']) =
        (i ++ '.' :: j) ++ ',' :: [d1, d2, ' ', '₺'] from by simp] at *
    rw [parse_tr_price, hn, pyFloat_digits_dot hij hd hijne]
    norm_num
  · intro raw h
    rw [parse_tr_price, h]
    rfl
  · intro raw h
    rcases pyFloat_no_digit (trNormalize_no_digit h)
      with h' | h' | h' | h'
    · exact Or.inl (by rw [parse_tr_price, h']; rfl)
    · exact Or.inr (Or.inl (by rw [parse_tr_price, h']; rfl))
    · exact Or.inr (Or.inr (Or.inl (by rw [parse_tr_price, h']; rfl)))
    · exact Or.inr (Or.inr (Or.inr (by rw [parse_tr_price, h']; rfl)))

/-- C4 (witness): `"84,90 ₺"` parses to the finite value `84 + 90/100`,
`"1.249,90 ₺"` parses to `1249 + 90/100` (digits concatenated across the
thousands dot), a digit-free string whose normalised form is unparsable
yields `0.0`, and a digit-free string lands in the
`0.0`-or-named-special range. -/
theorem C4_parse_tr_price_witness :
    parse_tr_price (['8', '4'] ++ ',' :: ['9', '0', ' ', '₺']) =
      PyFloat.finite
        ((digitsVal ['8', '4'] : ℚ) + (digitsVal ['9', '0'] : ℚ) / 100) ∧
    parse_tr_price
        (['1'] ++ '.' :: (['2', '4', '9'] ++ ',' ::
          ['9', '0', ' ', '₺'])) =
      PyFloat.finite
        ((digitsVal (['1'] ++ ['2', '4', '9']) : ℚ) +
          (digitsVal ['9', '0'] : ℚ) / 100) ∧
    parse_tr_price ['a', 'b', 'c'] = PyFloat.finite 0 ∧
    (parse_tr_price ['a', 'b', 'c'] = PyFloat.finite 0 ∨
      parse_tr_price ['a', 'b', 'c'] = PyFloat.inf false ∨
      parse_tr_price ['a', 'b', 'c'] = PyFloat.inf true ∨
      parse_tr_price ['a', 'b', 'c'] = PyFloat.nan) :=
  ⟨C4_parse_tr_price.1 ['8', '4'] '9' '0' (by decide) (by decide)
     (by decide) (by decide),
   C4_parse_tr_price.2.1 ['1'] ['2', '4', '9'] '9' '0' (by decide)
     (by decide) (by decide) (by decide) (by decide) (by decide),
   C4_parse_tr_price.2.2.1 ['a', 'b', 'c'] (by decide),
   C4_parse_tr_price.2.2.2.2.1 ['a', 'b', 'c'] (by decide)⟩

end Bakkal
